import Mathlib

/-!
Verification of the partition/count/merge core of the `character_frequency`
crate (`src/lib.rs`).  The Rust code is shallowly embedded:

* a text is a `List Char` (Rust `&str` viewed as its sequence of Unicode
  scalar values); `byteLen` is its UTF-8 byte length (Rust `str::len`);
* `usize` arithmetic is modelled on `Nat` with explicit wraparound
  modulo `2 ^ 64` (`uadd`, `usub`), the release-profile two's-complement
  semantics with which the crate ships;
* `HashMap<char, usize>` is modelled by its key-to-count mapping
  `Char → Option Nat` (`none` meaning the key is absent); `HashMap`
  equality is extensional equality of these functions;
* code that panics is modelled with `Option` (`none` meaning the operation
  aborts instead of returning a mapping);
* Rust's `char::to_lowercase` consults the Unicode table of the standard
  library, which is external to this repository; it enters the embedding as
  an explicit parameter `lower : Char → List Char` giving the list of
  characters of the full lowercase form of a character;
* the orchestrator `character_frequencies_with_n_threads_w_case` merges
  partial maps in a nondeterministic arrival order; its possible results
  are captured by the relation `OrchestratorReturns`, built on
  `MergeReduces`, which allows any sequence of pairwise merges.
-/

/-- Number of values of Rust's 64-bit `usize`. -/
def USIZE : Nat := 2 ^ 64

/-- Wrapping `usize` addition. -/
def uadd (a b : Nat) : Nat := (a + b) % USIZE

/-- Wrapping `usize` subtraction (intended for `a b < USIZE`). -/
def usub (a b : Nat) : Nat := (a + USIZE - b) % USIZE

/-- The `CaseSense` enum of `src/lib.rs`. -/
inductive CaseSense
  | Insensitive
  | InsensitiveASCIIOnly
  | Sensitive
deriving DecidableEq

/-- Rust `char::to_ascii_lowercase`: ASCII uppercase letters are shifted to
their lowercase form, all other characters are unchanged. -/
def toAsciiLowercase (c : Char) : Char :=
  if 'A' ≤ c ∧ c ≤ 'Z' then Char.ofNat (c.toNat + 32) else c

/-- UTF-8 byte length of a text (Rust `str::len`). -/
def byteLen (text : List Char) : Nat := (text.map Char.utf8Size).sum

/-- A frequency mapping: Rust `HashMap<char, usize>` as its key-to-count
function. -/
abbrev FreqMap := Char → Option Nat

/-- The empty mapping (`HashMap::new()`). -/
def emptyFreq : FreqMap := fun _ => none

/-- Models `*frequency_map.entry(c).or_insert(0) += 1`. -/
def bumpFreq (m : FreqMap) (c : Char) : FreqMap :=
  fun x => if x = c then some ((m c).getD 0 + 1) else m x

/-- The per-character case mapping inside `character_frequencies_range`:
`Sensitive` keeps the character, `InsensitiveASCIIOnly` ASCII-lowercases
it, and `Insensitive` takes the full lowercase form when that form is a
single character and panics (`none`) otherwise. -/
def caseMap (lower : Char → List Char) (case_sense : CaseSense)
    (ch : Char) : Option Char :=
  match case_sense with
  | .Insensitive =>
    match lower ch with
    | [c] => some c
    | _ => none
  | .InsensitiveASCIIOnly => some (toAsciiLowercase ch)
  | .Sensitive => some ch

/-- One step of the counting loop of `character_frequencies_range`:
a panic while case-folding the current character aborts the loop. -/
def countStep (lower : Char → List Char) (case_sense : CaseSense)
    (acc : Option FreqMap) (ch : Char) : Option FreqMap :=
  match acc, caseMap lower case_sense ch with
  | some m, some c => some (bumpFreq m c)
  | _, _ => none

/-- The counting loop of `character_frequencies_range` over a list of
characters, starting from the empty mapping. -/
def countFold (lower : Char → List Char) (case_sense : CaseSense)
    (l : List Char) : Option FreqMap :=
  l.foldl (countStep lower case_sense) (some emptyFreq)

/-- Models `text.chars().skip(from).take(to - from + 1)` with `usize`
arithmetic in the element count. -/
def sliceOf (text : List Char) (from_ to_ : Nat) : List Char :=
  (text.drop from_).take (uadd (usub to_ from_) 1)

/-- Embedding of `character_frequencies_range` of `src/lib.rs`. -/
def character_frequencies_range (lower : Char → List Char)
    (text : List Char) (from_ to_ : Nat) (case_sense : CaseSense) :
    Option FreqMap :=
  countFold lower case_sense (sliceOf text from_ to_)

/-- Embedding of `sequential_character_frequencies_w_case` of
`src/lib.rs`: one counting pass over the range `(0, text.len() - 1)`,
where `text.len()` is the byte length. -/
def sequential_character_frequencies_w_case (lower : Char → List Char)
    (text : List Char) (case_sense : CaseSense) : Option FreqMap :=
  character_frequencies_range lower text 0 (usub (byteLen text) 1)
    case_sense

/-- Embedding of `add_frequencies` of `src/lib.rs`: for every key of `b`,
add its count to the entry of `a`, creating the entry at `0` first when it
is absent. -/
def add_frequencies (a b : FreqMap) : FreqMap :=
  fun c =>
    match a c, b c with
    | none, none => none
    | some x, none => some x
    | none, some y => some y
    | some x, some y => some (x + y)

/-- The partition planning loop of
`character_frequencies_with_n_threads_w_case`: emit one `(from, size)`
range per requested size, threading the mutable `from` through `usize`
addition. -/
def rangesFromSizes (start : Nat) : List Nat → List (Nat × Nat)
  | [] => []
  | sz :: rest => (start, sz) :: rangesFromSizes (uadd start sz) rest

/-- The ranges planned by `character_frequencies_with_n_threads_w_case`
(`src/lib.rs` lines 113 to 142): `threads_with_less_data` ranges of
`chunk_size` positions first, then `threads_with_more_data` ranges of
`chunk_size + 1` positions. -/
def planRanges (length threads : Nat) : List (Nat × Nat) :=
  let chunk_size := max 1 (length / threads)
  let threads_with_more_data := length % threads
  let threads_with_less_data := threads - threads_with_more_data
  rangesFromSizes 0
    (List.replicate threads_with_less_data chunk_size ++
      List.replicate threads_with_more_data (chunk_size + 1))

/-- The partial result each spawned counting thread sends back:
`character_frequencies_range(shared, from, from + chunk_size - 1, case)`. -/
def rangeResults (lower : Char → List Char) (text : List Char)
    (threads : Nat) (case_sense : CaseSense) : List (Option FreqMap) :=
  (planRanges (byteLen text) threads).map fun p =>
    character_frequencies_range lower text p.1 (usub (uadd p.1 p.2) 1)
      case_sense

/-- All ways the collector loop can reduce a bag of partial results to a
single mapping by repeatedly replacing two collected results with their
`add_frequencies` merge. -/
inductive MergeReduces : List FreqMap → FreqMap → Prop
  | single (m : FreqMap) : MergeReduces [m] m
  | merge (l tail : List FreqMap) (a b r : FreqMap)
      (hperm : List.Perm l (a :: b :: tail))
      (hrest : MergeReduces (add_frequencies a b :: tail) r) :
      MergeReduces l r

/-- Big-step relation for `character_frequencies_with_n_threads_w_case` of
`src/lib.rs`: `threads <= 1` takes the sequential path; otherwise one
counting task per planned range must succeed and the collected partial
results are merged pairwise in an arbitrary order. -/
def OrchestratorReturns (lower : Char → List Char) (text : List Char)
    (threads : Nat) (case_sense : CaseSense) (r : FreqMap) : Prop :=
  if threads ≤ 1 then
    sequential_character_frequencies_w_case lower text case_sense = some r
  else
    (rangeResults lower text threads case_sense).all Option.isSome
      = true ∧
    MergeReduces
      ((rangeResults lower text threads case_sense).filterMap id) r

/-- Canonical merge of a list of partial results, used to state that every
arrival order the collector can see produces the same value. -/
def foldAll (l : List FreqMap) : FreqMap :=
  l.foldl add_frequencies emptyFreq

/-- Proof-side variant of `rangesFromSizes` with exact `Nat` addition; it
agrees with `rangesFromSizes` whenever the positions do not wrap. -/
def plainRanges (start : Nat) : List Nat → List (Nat × Nat)
  | [] => []
  | sz :: rest => (start, sz) :: plainRanges (start + sz) rest

/-- Combination of an optional stored count with additional occurrences,
used to state the pointwise characterization of the counting loop. -/
def addCount (o : Option Nat) (k : Nat) : Option Nat :=
  match o with
  | none => if k = 0 then none else some k
  | some v => some (v + k)

theorem add_frequencies_comm (a b : FreqMap) :
    add_frequencies a b = add_frequencies b a := by
  funext c
  simp only [add_frequencies]
  cases a c <;> cases b c <;> simp [Nat.add_comm]

theorem add_frequencies_assoc (a b c : FreqMap) :
    add_frequencies (add_frequencies a b) c
      = add_frequencies a (add_frequencies b c) := by
  funext x
  simp only [add_frequencies]
  cases a x <;> cases b x <;> cases c x <;> simp [Nat.add_assoc]

theorem add_frequencies_empty_right (a : FreqMap) :
    add_frequencies a emptyFreq = a := by
  funext x
  simp only [add_frequencies, emptyFreq]
  cases a x <;> simp

theorem add_frequencies_empty_left (a : FreqMap) :
    add_frequencies emptyFreq a = a := by
  funext x
  simp only [add_frequencies, emptyFreq]
  cases a x <;> simp

theorem foldl_add_frequencies (l : List FreqMap) :
    ∀ a, l.foldl add_frequencies a = add_frequencies a (foldAll l) := by
  induction l with
  | nil =>
    intro a
    simp [foldAll, add_frequencies_empty_right]
  | cons b l ih =>
    intro a
    have h1 : foldAll (b :: l) = add_frequencies b (foldAll l) := by
      show (b :: l).foldl add_frequencies emptyFreq = _
      rw [List.foldl_cons, ih, add_frequencies_empty_left]
    rw [List.foldl_cons, ih, h1, ← add_frequencies_assoc]

theorem foldAll_cons (b : FreqMap) (l : List FreqMap) :
    foldAll (b :: l) = add_frequencies b (foldAll l) := by
  show (b :: l).foldl add_frequencies emptyFreq = _
  rw [List.foldl_cons, foldl_add_frequencies, add_frequencies_empty_left]

theorem foldAll_singleton (m : FreqMap) : foldAll [m] = m := by
  rw [foldAll_cons]
  show add_frequencies m (foldAll []) = m
  rw [show foldAll [] = emptyFreq from rfl, add_frequencies_empty_right]

theorem foldAll_perm {l l' : List FreqMap} (h : List.Perm l l') :
    foldAll l = foldAll l' := by
  induction h with
  | nil => rfl
  | cons x _ ih => rw [foldAll_cons, foldAll_cons, ih]
  | swap x y l =>
    rw [foldAll_cons, foldAll_cons, foldAll_cons, foldAll_cons,
      ← add_frequencies_assoc, ← add_frequencies_assoc,
      add_frequencies_comm y x]
  | trans _ _ ih1 ih2 => rw [ih1, ih2]

theorem mergeReduces_eq_foldAll {l : List FreqMap} {r : FreqMap}
    (h : MergeReduces l r) : r = foldAll l := by
  induction h with
  | single m => rw [foldAll_singleton]
  | merge l tail a b r hperm _ ih =>
    rw [ih, foldAll_perm hperm, foldAll_cons, foldAll_cons, foldAll_cons,
      add_frequencies_assoc]

theorem mergeReduces_cons (tail : List FreqMap) :
    ∀ a : FreqMap, MergeReduces (a :: tail) (foldAll (a :: tail)) := by
  induction tail with
  | nil =>
    intro a
    rw [foldAll_singleton]
    exact MergeReduces.single a
  | cons b t ih =>
    intro a
    refine MergeReduces.merge _ t a b _ (List.Perm.refl _) ?_
    have h := ih (add_frequencies a b)
    rwa [foldAll_cons, add_frequencies_assoc, ← foldAll_cons,
      ← foldAll_cons] at h

theorem mergeReduces_exists (l : List FreqMap) (h : l ≠ []) :
    MergeReduces l (foldAll l) := by
  match l with
  | [] => exact absurd rfl h
  | a :: tail => exact mergeReduces_cons tail a

theorem countStep_none (lower : Char → List Char) (cs : CaseSense)
    (ch : Char) : countStep lower cs none ch = none := by
  cases caseMap lower cs ch <;> rfl

theorem countStep_some (lower : Char → List Char) (cs : CaseSense)
    (ch : Char) (m : FreqMap) (c : Char)
    (hc : caseMap lower cs ch = some c) :
    countStep lower cs (some m) ch = some (bumpFreq m c) := by
  simp [countStep, hc]

theorem countStep_fail (lower : Char → List Char) (cs : CaseSense)
    (ch : Char) (m : FreqMap) (hc : caseMap lower cs ch = none) :
    countStep lower cs (some m) ch = none := by
  simp [countStep, hc]

theorem foldl_countStep_none (lower : Char → List Char) (cs : CaseSense)
    (l : List Char) : l.foldl (countStep lower cs) none = none := by
  induction l with
  | nil => rfl
  | cons ch t ih => rw [List.foldl_cons, countStep_none]; exact ih

theorem bumpFreq_eq_add (m : FreqMap) (c : Char) :
    bumpFreq m c = add_frequencies m (bumpFreq emptyFreq c) := by
  funext x
  by_cases h : x = c
  · subst h
    simp only [bumpFreq, add_frequencies, emptyFreq, if_pos rfl]
    cases m x <;> simp
  · simp only [bumpFreq, add_frequencies, emptyFreq, if_neg h]
    cases m x <;> simp

theorem countFold_from (lower : Char → List Char) (cs : CaseSense)
    (l : List Char) :
    ∀ m : FreqMap, l.foldl (countStep lower cs) (some m)
      = (countFold lower cs l).map (fun m2 => add_frequencies m m2) := by
  induction l with
  | nil =>
    intro m
    simp [countFold, add_frequencies_empty_right]
  | cons ch t ih =>
    intro m
    rw [List.foldl_cons]
    cases hc : caseMap lower cs ch with
    | none =>
      rw [countStep_fail lower cs ch m hc, foldl_countStep_none]
      have hcons : countFold lower cs (ch :: t) = none := by
        show (ch :: t).foldl _ (some emptyFreq) = _
        rw [List.foldl_cons, countStep_fail lower cs ch emptyFreq hc,
          foldl_countStep_none]
      rw [hcons]
      rfl
    | some c =>
      rw [countStep_some lower cs ch m c hc, ih]
      have hcons : countFold lower cs (ch :: t)
          = (countFold lower cs t).map
            (fun m2 => add_frequencies (bumpFreq emptyFreq c) m2) := by
        show (ch :: t).foldl _ (some emptyFreq) = _
        rw [List.foldl_cons, countStep_some lower cs ch emptyFreq c hc,
          ih]
      rw [hcons]
      cases countFold lower cs t with
      | none => rfl
      | some mt =>
        simp only [Option.map_some']
        rw [bumpFreq_eq_add m c, add_frequencies_assoc]

theorem countFold_append (lower : Char → List Char) (cs : CaseSense)
    (xs ys : List Char) :
    countFold lower cs (xs ++ ys)
      = (countFold lower cs xs).bind
          (fun m1 => (countFold lower cs ys).map
            (fun m2 => add_frequencies m1 m2)) := by
  simp only [countFold, List.foldl_append]
  cases h : xs.foldl (countStep lower cs) (some emptyFreq) with
  | none => rw [foldl_countStep_none]; rfl
  | some m1 => rw [countFold_from]; rfl

theorem countFold_isSome_iff (lower : Char → List Char) (cs : CaseSense)
    (l : List Char) :
    (countFold lower cs l).isSome = true
      ↔ ∀ ch ∈ l, (caseMap lower cs ch).isSome = true := by
  induction l with
  | nil => simp [countFold]
  | cons ch t ih =>
    cases hc : caseMap lower cs ch with
    | none =>
      have hnone : countFold lower cs (ch :: t) = none := by
        simp only [countFold, List.foldl_cons]
        rw [countStep_fail lower cs ch emptyFreq hc, foldl_countStep_none]
      rw [hnone]
      simp [hc]
    | some c =>
      have hsome : countFold lower cs (ch :: t)
          = (countFold lower cs t).map
            (fun m2 => add_frequencies (bumpFreq emptyFreq c) m2) := by
        simp only [countFold, List.foldl_cons]
        rw [countStep_some lower cs ch emptyFreq c hc, countFold_from]
        rfl
      rw [hsome, List.forall_mem_cons]
      simp only [Option.isSome_map']
      rw [ih]
      simp [hc]

theorem foldl_countStep_count (lower : Char → List Char)
    (cs : CaseSense) (l : List Char) :
    ∀ m0 m : FreqMap, l.foldl (countStep lower cs) (some m0) = some m →
      ∀ c, m c
        = addCount (m0 c) ((l.filterMap (caseMap lower cs)).count c) := by
  induction l with
  | nil =>
    intro m0 m h c
    injection h with h2
    subst h2
    cases m0 c <;> simp [addCount]
  | cons ch t ih =>
    intro m0 m h c
    rw [List.foldl_cons] at h
    cases hc : caseMap lower cs ch with
    | none =>
      rw [countStep_fail lower cs ch m0 hc, foldl_countStep_none] at h
      exact Option.noConfusion h
    | some c0 =>
      rw [countStep_some lower cs ch m0 c0 hc] at h
      have hrec := ih (bumpFreq m0 c0) m h c
      have hfm : (ch :: t).filterMap (caseMap lower cs)
          = c0 :: t.filterMap (caseMap lower cs) := by
        rw [List.filterMap_cons, hc]
      rw [hfm]
      by_cases hcc : c = c0
      · subst hcc
        rw [hrec]
        simp only [bumpFreq, if_pos rfl, List.count_cons_self]
        cases m0 c <;> simp [addCount] <;> omega
      · have hne : c0 ≠ c := fun hh => hcc hh.symm
        rw [hrec]
        simp only [bumpFreq, if_neg hcc]
        simp [List.count_cons, hne, hcc]

theorem countFold_count (lower : Char → List Char) (cs : CaseSense)
    (l : List Char) (m : FreqMap) (h : countFold lower cs l = some m)
    (c : Char) :
    m c = addCount none ((l.filterMap (caseMap lower cs)).count c) := by
  have h2 := foldl_countStep_count lower cs l emptyFreq m h c
  simpa [emptyFreq] using h2

theorem countFold_ne_some_zero (lower : Char → List Char)
    (cs : CaseSense) (l : List Char) (m : FreqMap)
    (h : countFold lower cs l = some m) (c : Char) : m c ≠ some 0 := by
  rw [countFold_count lower cs l m h c]
  by_cases hk : (l.filterMap (caseMap lower cs)).count c = 0 <;>
    simp [addCount, hk]

theorem countFold_support (lower : Char → List Char) (cs : CaseSense)
    (l : List Char) (m : FreqMap) (h : countFold lower cs l = some m)
    (c : Char) (hc : m c ≠ none) :
    c ∈ l.filterMap (caseMap lower cs) := by
  rw [countFold_count lower cs l m h c] at hc
  by_cases hk : (l.filterMap (caseMap lower cs)).count c = 0
  · simp [addCount, hk] at hc
  · exact List.count_pos_iff.mp (Nat.pos_of_ne_zero hk)

theorem countFold_sum (lower : Char → List Char) (cs : CaseSense)
    (l : List Char) (m : FreqMap) (h : countFold lower cs l = some m)
    (hok : ∀ ch ∈ l, (caseMap lower cs ch).isSome = true) :
    ((l.filterMap (caseMap lower cs)).toFinset.sum fun c => (m c).getD 0)
      = l.length := by
  have hlen : (l.filterMap (caseMap lower cs)).length = l.length :=
    List.filterMap_length_eq_length.mpr hok
  rw [← hlen, ← List.sum_toFinset_count_eq_length]
  refine Finset.sum_congr rfl fun c hcF => ?_
  have hmem := List.mem_toFinset.mp hcF
  have hpos := List.count_pos_iff.mpr hmem
  rw [countFold_count lower cs l m h c]
  have hk : (l.filterMap (caseMap lower cs)).count c ≠ 0 :=
    Nat.pos_iff_ne_zero.mp hpos
  simp [addCount, hk]

theorem rangesFromSizes_eq_plain (sizes : List Nat) :
    ∀ start : Nat, start + sizes.sum < USIZE →
      rangesFromSizes start sizes = plainRanges start sizes := by
  induction sizes with
  | nil => intro start _; rfl
  | cons sz rest ih =>
    intro start h
    rw [List.sum_cons, ← Nat.add_assoc] at h
    have hlt : start + sz < USIZE :=
      Nat.lt_of_le_of_lt (Nat.le_add_right _ _) h
    have hu : uadd start sz = start + sz := Nat.mod_eq_of_lt hlt
    show (start, sz) :: rangesFromSizes (uadd start sz) rest = _
    rw [hu, ih (start + sz) h]
    rfl

theorem plainRanges_append (l1 l2 : List Nat) :
    ∀ start, plainRanges start (l1 ++ l2)
      = plainRanges start l1 ++ plainRanges (start + l1.sum) l2 := by
  induction l1 with
  | nil => intro start; simp [plainRanges]
  | cons sz rest ih =>
    intro start
    show (start, sz) :: plainRanges (start + sz) (rest ++ l2) = _
    rw [ih (start + sz)]
    simp [plainRanges, List.sum_cons, Nat.add_assoc]

theorem plainRanges_replicate (c n : Nat) :
    ∀ start, plainRanges start (List.replicate n c)
      = (List.range n).map (fun i => (start + i * c, c)) := by
  induction n with
  | zero => intro start; simp [plainRanges]
  | succ n ih =>
    intro start
    rw [List.replicate_succ]
    show (start, c) :: plainRanges (start + c) (List.replicate n c) = _
    rw [ih (start + c), List.range_succ_eq_map, List.map_cons,
      List.map_map]
    refine congrArg₂ _ (by simp) ?_
    refine List.map_congr_left fun i _ => ?_
    have hm : Nat.succ i * c = i * c + c := Nat.succ_mul i c
    simp only [Function.comp]
    rw [Prod.ext_iff]
    constructor
    · simp only []
      omega
    · rfl

theorem plainRanges_chain (sizes : List Nat) :
    ∀ start, List.Chain' (fun p q : Nat × Nat => p.1 + p.2 = q.1)
      (plainRanges start sizes) := by
  induction sizes with
  | nil => intro start; exact List.chain'_nil
  | cons sz rest ih =>
    intro start
    cases rest with
    | nil => simp [plainRanges]
    | cons sz2 r2 =>
      show List.Chain' _
        ((start, sz) :: (start + sz, sz2) :: plainRanges (start + sz + sz2) r2)
      rw [List.chain'_cons]
      exact ⟨rfl, ih (start + sz)⟩

theorem plainRanges_mem (sizes : List Nat) :
    ∀ start p, p ∈ plainRanges start sizes →
      p.2 ∈ sizes ∧ start ≤ p.1 ∧ p.1 + p.2 ≤ start + sizes.sum := by
  induction sizes with
  | nil =>
    intro start p hp
    exact absurd hp (by simp [plainRanges])
  | cons sz rest ih =>
    intro start p hp
    rw [show plainRanges start (sz :: rest)
        = (start, sz) :: plainRanges (start + sz) rest from rfl,
      List.mem_cons] at hp
    rw [List.sum_cons]
    cases hp with
    | inl h =>
      subst h
      refine ⟨List.mem_cons_self _ _, Nat.le_refl _, ?_⟩
      simp only []
      omega
    | inr h =>
      obtain ⟨h1, h2, h3⟩ := ih (start + sz) p h
      exact ⟨List.mem_cons_of_mem _ h1, by omega, by omega⟩

theorem plainRanges_length (sizes : List Nat) :
    ∀ start, (plainRanges start sizes).length = sizes.length := by
  induction sizes with
  | nil => intro start; rfl
  | cons sz rest ih =>
    intro start
    show (plainRanges (start + sz) rest).length + 1 = _
    rw [ih (start + sz)]
    rfl

theorem plainRanges_map_snd (sizes : List Nat) :
    ∀ start, (plainRanges start sizes).map Prod.snd = sizes := by
  induction sizes with
  | nil => intro start; rfl
  | cons sz rest ih =>
    intro start
    show sz :: (plainRanges (start + sz) rest).map Prod.snd = _
    rw [ih (start + sz)]

theorem take_add_drop {α : Type} (l : List α) :
    ∀ n k : Nat, l.take (n + k) = l.take n ++ (l.drop n).take k := by
  induction l with
  | nil => intro n k; simp
  | cons x t ih =>
    intro n k
    cases n with
    | zero => simp
    | succ n =>
      rw [Nat.succ_add, List.take_succ_cons, List.take_succ_cons,
        List.drop_succ_cons, ih n k]
      rfl

theorem take_chunk {α : Type} (l : List α) (a n k : Nat) :
    (l.drop a).take n ++ (l.drop (a + n)).take k
      = (l.drop a).take (n + k) := by
  rw [take_add_drop (l.drop a) n k, List.drop_drop]

theorem planSizes_sum (length threads : Nat) (ht : 1 ≤ threads) :
    (List.replicate (threads - length % threads)
        (max 1 (length / threads))
      ++ List.replicate (length % threads)
        (max 1 (length / threads) + 1)).sum
      = threads * max 1 (length / threads) + length % threads := by
  rw [List.sum_append, List.sum_const_nat, List.sum_const_nat]
  have hr : length % threads < threads := Nat.mod_lt _ ht
  have h1 : (threads - length % threads) * max 1 (length / threads)
      = threads * max 1 (length / threads)
        - length % threads * max 1 (length / threads) :=
    Nat.sub_mul _ _ _
  have h2 : length % threads * (max 1 (length / threads) + 1)
      = length % threads * max 1 (length / threads)
        + length % threads :=
    Nat.mul_succ _ _
  have h3 : length % threads * max 1 (length / threads)
      ≤ threads * max 1 (length / threads) :=
    Nat.mul_le_mul_right _ (Nat.le_of_lt hr)
  omega

theorem planTotal_le (length threads : Nat) (ht : 1 ≤ threads) :
    threads * max 1 (length / threads) + length % threads
      ≤ threads + length := by
  by_cases h : length / threads = 0
  · rw [h, Nat.max_eq_left (Nat.zero_le 1)]
    have := Nat.mod_le length threads
    omega
  · rw [Nat.max_eq_right (Nat.pos_of_ne_zero h)]
    have h2 := Nat.div_add_mod length threads
    omega

theorem length_le_planTotal (length threads : Nat) (ht : 1 ≤ threads) :
    length ≤ threads * max 1 (length / threads) + length % threads := by
  by_cases h : length / threads = 0
  · have hlt : length < threads := by
      by_contra hge
      push_neg at hge
      have := Nat.div_pos hge (by omega)
      omega
    have hmod : length % threads = length := Nat.mod_eq_of_lt hlt
    rw [h, hmod, Nat.max_eq_left (Nat.zero_le 1)]
    omega
  · rw [Nat.max_eq_right (Nat.pos_of_ne_zero h)]
    have h2 := Nat.div_add_mod length threads
    omega

theorem length_le_byteLen (text : List Char) :
    text.length ≤ byteLen text := by
  induction text with
  | nil => simp [byteLen]
  | cons c t ih =>
    have hc := Char.utf8Size_pos c
    simp only [byteLen, List.map_cons, List.sum_cons,
      List.length_cons] at *
    omega

theorem sliceOf_thread_range (text : List Char) (f sz : Nat)
    (hsz : 1 ≤ sz) (hw : f + sz < USIZE) :
    sliceOf text f (usub (uadd f sz) 1) = (text.drop f).take sz := by
  have h1 : uadd f sz = f + sz := Nat.mod_eq_of_lt hw
  have h2 : usub (f + sz) 1 = f + sz - 1 := by
    show (f + sz + USIZE - 1) % USIZE = f + sz - 1
    have he : f + sz + USIZE - 1 = (f + sz - 1) + USIZE := by omega
    rw [he, Nat.add_mod_right]
    exact Nat.mod_eq_of_lt (by omega)
  have h3 : usub (f + sz - 1) f = sz - 1 := by
    show (f + sz - 1 + USIZE - f) % USIZE = sz - 1
    have he : f + sz - 1 + USIZE - f = (sz - 1) + USIZE := by omega
    rw [he, Nat.add_mod_right]
    exact Nat.mod_eq_of_lt (by omega)
  have h4 : uadd (sz - 1) 1 = sz := by
    show (sz - 1 + 1) % USIZE = sz
    have he : sz - 1 + 1 = sz := by omega
    rw [he]
    exact Nat.mod_eq_of_lt (by omega)
  simp only [sliceOf, h1, h2, h3, h4]

theorem sequential_eq_countFold (lower : Char → List Char)
    (text : List Char) (cs : CaseSense) (hL : byteLen text < USIZE) :
    sequential_character_frequencies_w_case lower text cs
      = countFold lower cs text := by
  by_cases h0 : byteLen text = 0
  · have hlen : text.length = 0 :=
      Nat.le_zero.mp (h0 ▸ length_le_byteLen text)
    have htext : text = [] := List.length_eq_zero.mp hlen
    subst htext
    rfl
  · have h1 : usub (byteLen text) 1 = byteLen text - 1 := by
      show (byteLen text + USIZE - 1) % USIZE = byteLen text - 1
      have he : byteLen text + USIZE - 1 = (byteLen text - 1) + USIZE := by
        omega
      rw [he, Nat.add_mod_right]
      exact Nat.mod_eq_of_lt (by omega)
    have h2 : usub (byteLen text - 1) 0 = byteLen text - 1 := by
      show (byteLen text - 1 + USIZE - 0) % USIZE = byteLen text - 1
      have he : byteLen text - 1 + USIZE - 0
          = (byteLen text - 1) + USIZE := by omega
      rw [he, Nat.add_mod_right]
      exact Nat.mod_eq_of_lt (by omega)
    have h3 : uadd (byteLen text - 1) 1 = byteLen text := by
      show (byteLen text - 1 + 1) % USIZE = byteLen text
      have he : byteLen text - 1 + 1 = byteLen text := by omega
      rw [he]
      exact Nat.mod_eq_of_lt hL
    show countFold lower cs (sliceOf text 0 (usub (byteLen text) 1)) = _
    simp only [sliceOf, h1, h2, h3, List.drop_zero]
    rw [List.take_of_length_le (length_le_byteLen text)]

theorem countFold_flatten (lower : Char → List Char) (cs : CaseSense)
    (ps : List (List Char))
    (h : ∀ p ∈ ps, (countFold lower cs p).isSome = true) :
    countFold lower cs ps.flatten
      = some (foldAll (ps.filterMap (countFold lower cs))) := by
  induction ps with
  | nil => rfl
  | cons p ps ih =>
    rw [List.flatten_cons, countFold_append]
    obtain ⟨mp, hmp⟩ :=
      Option.isSome_iff_exists.mp (h p (List.mem_cons_self p ps))
    have hps : ∀ q ∈ ps, (countFold lower cs q).isSome = true :=
      fun q hq => h q (List.mem_cons_of_mem p hq)
    rw [hmp, ih hps, List.filterMap_cons, hmp, foldAll_cons]
    rfl

theorem plainRanges_flatten (text : List Char) (sizes : List Nat) :
    ∀ start,
      ((plainRanges start sizes).map
        (fun p => (text.drop p.1).take p.2)).flatten
      = (text.drop start).take sizes.sum := by
  induction sizes with
  | nil => intro start; simp [plainRanges]
  | cons sz rest ih =>
    intro start
    show ((text.drop start).take sz ::
      (plainRanges (start + sz) rest).map _).flatten = _
    rw [List.flatten_cons, ih (start + sz), List.sum_cons,
      ← take_chunk text start sz rest.sum]

theorem ranges_core (lower : Char → List Char) (text : List Char)
    (cs : CaseSense) (sz : List Nat)
    (hsz1 : ∀ s ∈ sz, 1 ≤ s) (hlt : sz.sum < USIZE)
    (hlen : text.length ≤ sz.sum) (hne : sz ≠ [])
    (hok : ∀ ch ∈ text, (caseMap lower cs ch).isSome = true) :
    ((rangesFromSizes 0 sz).map
        (fun p => countFold lower cs
          (sliceOf text p.1 (usub (uadd p.1 p.2) 1)))).all
        Option.isSome = true ∧
    ((rangesFromSizes 0 sz).map
        (fun p => countFold lower cs
          (sliceOf text p.1 (usub (uadd p.1 p.2) 1)))).filterMap id
      ≠ [] ∧
    countFold lower cs text
      = some (foldAll (((rangesFromSizes 0 sz).map
          (fun p => countFold lower cs
            (sliceOf text p.1 (usub (uadd p.1 p.2) 1)))).filterMap id)) := by
  have hplain : rangesFromSizes 0 sz = plainRanges 0 sz :=
    rangesFromSizes_eq_plain sz 0 (by omega)
  have hmap :
      (plainRanges 0 sz).map
        (fun p => countFold lower cs
          (sliceOf text p.1 (usub (uadd p.1 p.2) 1)))
      = (plainRanges 0 sz).map
        (fun p => countFold lower cs ((text.drop p.1).take p.2)) := by
    refine List.map_congr_left fun p hp => ?_
    obtain ⟨h1, h2, h3⟩ := plainRanges_mem sz 0 p hp
    rw [sliceOf_thread_range text p.1 p.2 (hsz1 p.2 h1) (by omega)]
  have hmm :
      (plainRanges 0 sz).map
        (fun p => countFold lower cs ((text.drop p.1).take p.2))
      = ((plainRanges 0 sz).map
          (fun p => (text.drop p.1).take p.2)).map
            (countFold lower cs) := by
    rw [List.map_map]
    rfl
  rw [hplain, hmap, hmm]
  have hpok : ∀ p ∈ (plainRanges 0 sz).map
      (fun p => (text.drop p.1).take p.2),
      (countFold lower cs p).isSome = true := by
    intro p hp
    rw [countFold_isSome_iff]
    intro ch hch
    obtain ⟨q, hq, rfl⟩ := List.mem_map.mp hp
    exact hok ch (List.mem_of_mem_drop (List.mem_of_mem_take hch))
  have hfm :
      (((plainRanges 0 sz).map
        (fun p => (text.drop p.1).take p.2)).map
          (countFold lower cs)).filterMap id
      = ((plainRanges 0 sz).map
          (fun p => (text.drop p.1).take p.2)).filterMap
            (countFold lower cs) := by
    rw [List.filterMap_map]
    rfl
  refine ⟨?_, ?_, ?_⟩
  · rw [List.all_eq_true]
    intro o ho
    obtain ⟨p, hp, rfl⟩ := List.mem_map.mp ho
    exact hpok p hp
  · rw [hfm]
    have hflen : (((plainRanges 0 sz).map
        (fun p => (text.drop p.1).take p.2)).filterMap
          (countFold lower cs)).length
        = (((plainRanges 0 sz).map
            (fun p => (text.drop p.1).take p.2))).length :=
      List.filterMap_length_eq_length.mpr hpok
    intro hnil
    rw [hnil, List.length_map, plainRanges_length] at hflen
    have hz : sz.length ≠ 0 := fun hz0 => hne (List.length_eq_zero.mp hz0)
    simp at hflen
    omega
  · have hflat : ((plainRanges 0 sz).map
        (fun p => (text.drop p.1).take p.2)).flatten = text := by
      rw [plainRanges_flatten text sz 0, List.drop_zero]
      exact List.take_of_length_le hlen
    rw [hfm]
    have hstep : countFold lower cs text
        = countFold lower cs (((plainRanges 0 sz).map
            (fun p => (text.drop p.1).take p.2)).flatten) := by
      rw [hflat]
    rw [hstep]
    exact countFold_flatten lower cs _ hpok

theorem parallel_core (lower : Char → List Char) (text : List Char)
    (threads : Nat) (cs : CaseSense) (ht : 2 ≤ threads)
    (hw : threads + byteLen text < USIZE)
    (hok : ∀ ch ∈ text, (caseMap lower cs ch).isSome = true) :
    (rangeResults lower text threads cs).all Option.isSome = true ∧
    (rangeResults lower text threads cs).filterMap id ≠ [] ∧
    countFold lower cs text
      = some (foldAll
          ((rangeResults lower text threads cs).filterMap id)) := by
  have ht1 : 1 ≤ threads := by omega
  have hdef : rangeResults lower text threads cs
      = (rangesFromSizes 0
          (List.replicate (threads - byteLen text % threads)
              (max 1 (byteLen text / threads))
            ++ List.replicate (byteLen text % threads)
              (max 1 (byteLen text / threads) + 1))).map
          (fun p => countFold lower cs
            (sliceOf text p.1 (usub (uadd p.1 p.2) 1))) := rfl
  have hsum := planSizes_sum (byteLen text) threads ht1
  have hle := planTotal_le (byteLen text) threads ht1
  have hge := length_le_planTotal (byteLen text) threads ht1
  have hlen2 := length_le_byteLen text
  rw [hdef]
  refine ranges_core lower text cs _ ?_ ?_ ?_ ?_ hok
  · intro s hs
    rcases List.mem_append.mp hs with hh | hh
    · rw [List.eq_of_mem_replicate hh]
      exact Nat.le_max_left _ _
    · rw [List.eq_of_mem_replicate hh]
      have := Nat.le_max_left 1 (byteLen text / threads)
      omega
  · rw [hsum]; omega
  · rw [hsum]; omega
  · intro hnil
    have hr : byteLen text % threads < threads := Nat.mod_lt _ ht1
    have hnl := congrArg List.length hnil
    simp [List.length_replicate] at hnl
    omega

theorem orchestrator_correct (lower : Char → List Char)
    (text : List Char) (threads : Nat) (cs : CaseSense)
    (ht : 1 ≤ threads) (hw : threads + byteLen text < USIZE)
    (hok : ∀ ch ∈ text, (caseMap lower cs ch).isSome = true) :
    (∃ r, OrchestratorReturns lower text threads cs r) ∧
    ∀ r, OrchestratorReturns lower text threads cs r →
      sequential_character_frequencies_w_case lower text cs = some r := by
  have hseq : sequential_character_frequencies_w_case lower text cs
      = countFold lower cs text :=
    sequential_eq_countFold lower text cs (by omega)
  by_cases hts : threads ≤ 1
  · have hsome : (countFold lower cs text).isSome = true :=
      (countFold_isSome_iff lower cs text).mpr hok
    obtain ⟨m, hm⟩ := Option.isSome_iff_exists.mp hsome
    constructor
    · refine ⟨m, ?_⟩
      simp only [OrchestratorReturns, if_pos hts]
      rw [hseq, hm]
    · intro r hr
      simp only [OrchestratorReturns, if_pos hts] at hr
      exact hr
  · obtain ⟨hall, hne, hcf⟩ :=
      parallel_core lower text threads cs (by omega) hw hok
    constructor
    · refine ⟨foldAll
        ((rangeResults lower text threads cs).filterMap id), ?_⟩
      simp only [OrchestratorReturns, if_neg hts]
      exact ⟨hall, mergeReduces_exists _ hne⟩
    · intro r hr
      simp only [OrchestratorReturns, if_neg hts] at hr
      rw [hseq, hcf, mergeReduces_eq_foldAll hr.2]

theorem rangesFromSizes_length (sizes : List Nat) :
    ∀ start, (rangesFromSizes start sizes).length = sizes.length := by
  induction sizes with
  | nil => intro start; rfl
  | cons sz rest ih =>
    intro start
    show (rangesFromSizes (uadd start sz) rest).length + 1 = _
    rw [ih (uadd start sz)]
    rfl

theorem foldAll_replicate_empty (n : Nat) :
    foldAll (List.replicate n emptyFreq) = emptyFreq := by
  induction n with
  | zero => rfl
  | succ n ih =>
    rw [List.replicate_succ, foldAll_cons, ih,
      add_frequencies_empty_right]

/-- C5: `add_frequencies` is commutative and associative and the empty
mapping is a right identity: for all frequency mappings `a`, `b`, `c` it
holds that `add_frequencies a b = add_frequencies b a`, that
`add_frequencies (add_frequencies a b) c
= add_frequencies a (add_frequencies b c)`, and that
`add_frequencies a emptyFreq = a`, equality being equality of the
key-to-count mappings. -/
theorem C5_merge_algebra :
    (∀ a b : FreqMap, add_frequencies a b = add_frequencies b a) ∧
    (∀ a b c : FreqMap,
      add_frequencies (add_frequencies a b) c
        = add_frequencies a (add_frequencies b c)) ∧
    (∀ a : FreqMap, add_frequencies a emptyFreq = a) :=
  ⟨add_frequencies_comm, add_frequencies_assoc,
    add_frequencies_empty_right⟩

/-- C1: for every text, every `threads ≥ 1` (with the planned positions
inside the `usize` range), and every case mode under which no character of
the text triggers the `Insensitive` multi-character-lowercase failure,
every mapping `character_frequencies_with_n_threads_w_case` can return —
under any interleaving of counting and merging tasks, i.e. any
`MergeReduces` order — is exactly the mapping computed by the sequential
single pass `sequential_character_frequencies_w_case`, and at least one
such result exists. -/
theorem C1_parallel_equals_sequential (lower : Char → List Char)
    (text : List Char) (threads : Nat) (cs : CaseSense)
    (ht : 1 ≤ threads) (hw : threads + byteLen text < USIZE)
    (hok : ∀ ch ∈ text, (caseMap lower cs ch).isSome = true) :
    (∃ r, OrchestratorReturns lower text threads cs r) ∧
    ∀ r, OrchestratorReturns lower text threads cs r →
      sequential_character_frequencies_w_case lower text cs = some r :=
  orchestrator_correct lower text threads cs ht hw hok

theorem C1_witness :
    1 ≤ 2 ∧ 2 + byteLen ['a', 'b'] < USIZE ∧
    ((∃ r, OrchestratorReturns (fun c => [c]) ['a', 'b'] 2
        CaseSense.Sensitive r) ∧
      ∀ r, OrchestratorReturns (fun c => [c]) ['a', 'b'] 2
          CaseSense.Sensitive r →
        sequential_character_frequencies_w_case (fun c => [c])
          ['a', 'b'] CaseSense.Sensitive = some r) :=
  ⟨by decide, by decide,
    C1_parallel_equals_sequential (fun c => [c]) ['a', 'b'] 2
      CaseSense.Sensitive (by decide) (by decide) (by decide)⟩

/-- C3: on the empty text, both the sequential path (`threads ≤ 1`) and
the parallel path (`threads ≥ 2`) of
`character_frequencies_with_n_threads_w_case` return the empty mapping and
do not fail, for every case mode. -/
theorem C3_empty_text (lower : Char → List Char) (threads : Nat)
    (cs : CaseSense) (_ht : 1 ≤ threads) :
    OrchestratorReturns lower [] threads cs emptyFreq ∧
    ∀ r, OrchestratorReturns lower [] threads cs r → r = emptyFreq := by
  have hseq : sequential_character_frequencies_w_case lower [] cs
      = some emptyFreq := rfl
  have helem : ∀ o ∈ rangeResults lower [] threads cs,
      o = some emptyFreq := by
    intro o ho
    obtain ⟨p, hp, rfl⟩ := List.mem_map.mp ho
    show countFold lower cs (sliceOf [] p.1 _) = some emptyFreq
    rw [show sliceOf [] p.1 (usub (uadd p.1 p.2) 1) = [] from by
      simp [sliceOf]]
    rfl
  by_cases hts : threads ≤ 1
  · constructor
    · simp only [OrchestratorReturns, if_pos hts]
      exact hseq
    · intro r hr
      simp only [OrchestratorReturns, if_pos hts] at hr
      rw [hseq] at hr
      injection hr with h2
      exact h2.symm
  · have hlenrr : (rangeResults lower [] threads cs).length
        = threads := by
      show ((planRanges (byteLen []) threads).map _).length = threads
      rw [List.length_map]
      show (rangesFromSizes 0 _).length = threads
      rw [rangesFromSizes_length]
      simp [byteLen]
    have hallok : ∀ o ∈ rangeResults lower [] threads cs,
        (Option.isSome o) = true := by
      intro o ho
      rw [helem o ho]
      rfl
    have hfm : (rangeResults lower [] threads cs).filterMap id
        = List.replicate threads emptyFreq := by
      refine List.eq_replicate_iff.mpr ⟨?_, ?_⟩
      · have hid : (List.filterMap id
              (rangeResults lower [] threads cs)).length
            = (List.filterMap (fun a : Option FreqMap => a)
                (rangeResults lower [] threads cs)).length := rfl
        rw [hid, List.filterMap_length_eq_length.mpr hallok, hlenrr]
      · intro b hb
        obtain ⟨o, ho, hid⟩ := List.mem_filterMap.mp hb
        rw [helem o ho] at hid
        exact (Option.some.inj hid).symm
    have hfold : foldAll (List.replicate threads emptyFreq)
        = emptyFreq := foldAll_replicate_empty threads
    have hall : (rangeResults lower [] threads cs).all Option.isSome
        = true := List.all_eq_true.mpr hallok
    have hne : List.replicate threads emptyFreq ≠ [] := by
      intro hnil
      have hl := congrArg List.length hnil
      simp at hl
      omega
    have hmr := mergeReduces_exists _ hne
    rw [hfold] at hmr
    constructor
    · simp only [OrchestratorReturns, if_neg hts]
      refine ⟨hall, ?_⟩
      rw [hfm]
      exact hmr
    · intro r hr
      simp only [OrchestratorReturns, if_neg hts] at hr
      have hr2 := mergeReduces_eq_foldAll hr.2
      rw [hfm, hfold] at hr2
      exact hr2

theorem C3_witness :
    1 ≤ 2 ∧
    (OrchestratorReturns (fun c => [c]) [] 2 CaseSense.Sensitive
        emptyFreq ∧
      ∀ r, OrchestratorReturns (fun c => [c]) [] 2 CaseSense.Sensitive
          r → r = emptyFreq) :=
  ⟨by decide,
    C3_empty_text (fun c => [c]) 2 CaseSense.Sensitive (by decide)⟩

theorem usub_uadd_inclusive (f sz : Nat) (hsz : 1 ≤ sz)
    (hw : f + sz < USIZE) : usub (uadd f sz) 1 = f + sz - 1 := by
  have h1 : uadd f sz = f + sz := Nat.mod_eq_of_lt hw
  rw [h1]
  show (f + sz + USIZE - 1) % USIZE = f + sz - 1
  have he : f + sz + USIZE - 1 = (f + sz - 1) + USIZE := by omega
  rw [he, Nat.add_mod_right]
  exact Nat.mod_eq_of_lt (by omega)

/-- C2 counterexample: with `length = 1` and `threads = 2` the planner
emits the two ranges `(from 0, size 1)` and `(from 1, size 2)`: two
non-empty ranges although only one character exists, with sizes summing to
`3 ≠ 1`, the second range lying beyond position `length - 1 = 0`. -/
theorem C2_counterexample :
    planRanges 1 2 = [(0, 1), (1, 2)] ∧
    ((planRanges 1 2).map Prod.snd).sum ≠ 1 ∧
    ¬ (∀ p ∈ planRanges 1 2, p.1 + p.2 - 1 ≤ 1 - 1) := by
  refine ⟨by decide, by decide, ?_⟩
  intro h
  have h2 := h (1, 2) (by decide)
  simp at h2

/-- C2 (amended): for every `length` and `threads ≥ 1` with the planned
positions inside the `usize` range, the planner emits contiguous, gapless
ranges starting at position 0 (consecutive ranges satisfy
`from + size = next from`, so they are pairwise disjoint), one non-empty
range per requested thread, with sizes summing to
`threads * max 1 (length / threads) + length % threads`; that total equals
`length` exactly when `threads ≤ length`, while for `threads > length` the
code plans `threads` non-empty ranges that overshoot the end of the index
space instead of clamping to one range per character. -/
theorem C2_partition_structure (length threads : Nat) (ht : 1 ≤ threads)
    (hw : threads + length < USIZE) :
    List.Chain' (fun p q : Nat × Nat => p.1 + p.2 = q.1)
      (planRanges length threads) ∧
    (planRanges length threads).length = threads ∧
    (∀ p ∈ planRanges length threads, 1 ≤ p.2) ∧
    ((planRanges length threads).map Prod.snd).sum
      = threads * max 1 (length / threads) + length % threads ∧
    (threads ≤ length →
      ((planRanges length threads).map Prod.snd).sum = length) := by
  have hr : length % threads < threads := Nat.mod_lt _ ht
  have hsum := planSizes_sum length threads ht
  have hle := planTotal_le length threads ht
  have hplan : planRanges length threads
      = plainRanges 0
        (List.replicate (threads - length % threads)
            (max 1 (length / threads))
          ++ List.replicate (length % threads)
            (max 1 (length / threads) + 1)) := by
    show rangesFromSizes 0 _ = _
    exact rangesFromSizes_eq_plain _ 0 (by omega)
  have hmapsnd := plainRanges_map_snd
    (List.replicate (threads - length % threads)
        (max 1 (length / threads))
      ++ List.replicate (length % threads)
        (max 1 (length / threads) + 1)) 0
  refine ⟨?_, ?_, ?_, ?_, ?_⟩
  · rw [hplan]
    exact plainRanges_chain _ 0
  · rw [hplan, plainRanges_length]
    simp [List.length_replicate]
    omega
  · intro p hp
    rw [hplan] at hp
    obtain ⟨h1, _, _⟩ := plainRanges_mem _ 0 p hp
    rcases List.mem_append.mp h1 with hh | hh
    · rw [List.eq_of_mem_replicate hh]
      exact Nat.le_max_left _ _
    · rw [List.eq_of_mem_replicate hh]
      have := Nat.le_max_left 1 (length / threads)
      omega
  · rw [hplan, hmapsnd]
    exact hsum
  · intro hts
    rw [hplan, hmapsnd, hsum]
    have hpos : 0 < length / threads := Nat.div_pos hts (by omega)
    rw [Nat.max_eq_right hpos]
    have := Nat.div_add_mod length threads
    omega

theorem C2_witness :
    1 ≤ 2 ∧ 2 + 5 < USIZE ∧
    (List.Chain' (fun p q : Nat × Nat => p.1 + p.2 = q.1)
        (planRanges 5 2) ∧
      (planRanges 5 2).length = 2 ∧
      (∀ p ∈ planRanges 5 2, 1 ≤ p.2) ∧
      ((planRanges 5 2).map Prod.snd).sum
        = 2 * max 1 (5 / 2) + 5 % 2 ∧
      (2 ≤ 5 → ((planRanges 5 2).map Prod.snd).sum = 5)) :=
  ⟨by decide, by decide, C2_partition_structure 5 2 (by decide)
    (by decide)⟩

/-- C8: for every `length` and `1 ≤ threads ≤ length`, with
`chunk_size = max 1 (length / threads)` and `r = length % threads`, the
planner emits exactly `threads - r` ranges of size `chunk_size` first,
contiguously from position 0, followed by exactly `r` ranges of size
`chunk_size + 1` covering the rest, and the inclusive upper bound computed
for each range is `from + size - 1`. -/
theorem C8_plan_shape (length threads : Nat) (ht : 1 ≤ threads)
    (hle : threads ≤ length) (hw : length < USIZE) :
    planRanges length threads
      = (List.range (threads - length % threads)).map
          (fun i => (i * max 1 (length / threads),
            max 1 (length / threads)))
        ++ (List.range (length % threads)).map
          (fun j => ((threads - length % threads)
              * max 1 (length / threads)
              + j * (max 1 (length / threads) + 1),
            max 1 (length / threads) + 1)) ∧
    ∀ p ∈ planRanges length threads,
      usub (uadd p.1 p.2) 1 = p.1 + p.2 - 1 := by
  have hr : length % threads < threads := Nat.mod_lt _ ht
  have hsum := planSizes_sum length threads ht
  have htot : threads * max 1 (length / threads) + length % threads
      = length := by
    have hpos : 0 < length / threads := Nat.div_pos hle (by omega)
    rw [Nat.max_eq_right hpos]
    have := Nat.div_add_mod length threads
    omega
  have hplan : planRanges length threads
      = plainRanges 0
        (List.replicate (threads - length % threads)
            (max 1 (length / threads))
          ++ List.replicate (length % threads)
            (max 1 (length / threads) + 1)) := by
    show rangesFromSizes 0 _ = _
    exact rangesFromSizes_eq_plain _ 0 (by omega)
  constructor
  · rw [hplan, plainRanges_append, plainRanges_replicate,
      plainRanges_replicate, List.sum_const_nat]
    refine congrArg₂ _ ?_ ?_
    · refine List.map_congr_left fun i _ => ?_
      rw [Nat.zero_add]
    · refine List.map_congr_left fun j _ => ?_
      rw [Nat.zero_add]
  · intro p hp
    rw [hplan] at hp
    obtain ⟨h1, _, h3⟩ := plainRanges_mem _ 0 p hp
    have hp2 : 1 ≤ p.2 := by
      rcases List.mem_append.mp h1 with hh | hh
      · rw [List.eq_of_mem_replicate hh]
        exact Nat.le_max_left _ _
      · rw [List.eq_of_mem_replicate hh]
        have := Nat.le_max_left 1 (length / threads)
        omega
    have hb : p.1 + p.2 < USIZE := by
      rw [List.sum_append, List.sum_const_nat, List.sum_const_nat] at h3
      have hs := hsum
      rw [List.sum_append, List.sum_const_nat, List.sum_const_nat] at hs
      omega
    exact usub_uadd_inclusive p.1 p.2 hp2 hb

theorem C8_witness :
    1 ≤ 2 ∧ 2 ≤ 5 ∧ 5 < USIZE ∧
    (planRanges 5 2
        = (List.range (2 - 5 % 2)).map
            (fun i => (i * max 1 (5 / 2), max 1 (5 / 2)))
          ++ (List.range (5 % 2)).map
            (fun j => ((2 - 5 % 2) * max 1 (5 / 2)
                + j * (max 1 (5 / 2) + 1), max 1 (5 / 2) + 1)) ∧
      ∀ p ∈ planRanges 5 2, usub (uadd p.1 p.2) 1 = p.1 + p.2 - 1) :=
  ⟨by decide, by decide, by decide,
    C8_plan_shape 5 2 (by decide) (by decide) (by decide)⟩

theorem foldl_countStep_congr (lower : Char → List Char)
    (cs1 cs2 : CaseSense) (f : Char → Char) :
    ∀ (l : List Char) (acc : Option FreqMap),
      (∀ ch ∈ l, caseMap lower cs1 ch = caseMap lower cs2 (f ch)) →
      l.foldl (countStep lower cs1) acc
        = (l.map f).foldl (countStep lower cs2) acc := by
  intro l
  induction l with
  | nil => intro acc _; rfl
  | cons ch t ih =>
    intro acc h
    rw [List.map_cons, List.foldl_cons, List.foldl_cons]
    have hstep : countStep lower cs1 acc ch
        = countStep lower cs2 acc (f ch) := by
      simp only [countStep, h ch (List.mem_cons_self ch t)]
    rw [hstep]
    exact ih _ (fun c hc => h c (List.mem_cons_of_mem _ hc))

/-- C4: under mode `Insensitive`, when every character of the counted
slice has a single-character full lowercase form,
`character_frequencies_range` succeeds and counts exactly those lowercase
characters (it agrees with a `Sensitive` count over the lowercased
slice); when some character of the slice has a lowercase form of more
than one character, the whole counting call fails (`none`) instead of
returning a mapping. -/
theorem C4_insensitive_folding (lower : Char → List Char)
    (text : List Char) (from_ to_ : Nat) :
    ((∀ ch ∈ sliceOf text from_ to_, (lower ch).length = 1) →
      character_frequencies_range lower text from_ to_
          CaseSense.Insensitive
        = countFold lower CaseSense.Sensitive
            ((sliceOf text from_ to_).map fun ch => (lower ch).headI)) ∧
    ((∃ ch ∈ sliceOf text from_ to_, (lower ch).length ≠ 1) →
      character_frequencies_range lower text from_ to_
          CaseSense.Insensitive = none) := by
  constructor
  · intro hall
    show countFold lower CaseSense.Insensitive (sliceOf text from_ to_)
      = _
    refine foldl_countStep_congr lower CaseSense.Insensitive
      CaseSense.Sensitive _ (sliceOf text from_ to_) (some emptyFreq)
      fun ch hch => ?_
    have h1 := hall ch hch
    match hl : lower ch with
    | [] => rw [hl] at h1; simp at h1
    | [x] => simp [caseMap, hl]
    | x :: y :: t => rw [hl] at h1; simp at h1
  · intro hbad
    obtain ⟨ch, hch, hlen⟩ := hbad
    have hmap : caseMap lower CaseSense.Insensitive ch = none := by
      match hl : lower ch with
      | [] => simp [caseMap, hl]
      | [x] => rw [hl] at hlen; simp at hlen
      | x :: y :: t => simp [caseMap, hl]
    have hns : ¬ (countFold lower CaseSense.Insensitive
        (sliceOf text from_ to_)).isSome = true := by
      rw [countFold_isSome_iff]
      intro hall2
      have h2 := hall2 ch hch
      rw [hmap] at h2
      simp at h2
    show countFold lower CaseSense.Insensitive (sliceOf text from_ to_)
      = none
    cases hcf : countFold lower CaseSense.Insensitive
        (sliceOf text from_ to_) with
    | none => rfl
    | some m => rw [hcf] at hns; simp at hns

theorem C4_witness :
    ((∀ ch ∈ sliceOf ['A'] 0 0,
        ((fun c => if c = 'A' then ['a'] else [c]) ch).length = 1) ∧
      character_frequencies_range
          (fun c => if c = 'A' then ['a'] else [c]) ['A'] 0 0
          CaseSense.Insensitive
        = countFold (fun c => if c = 'A' then ['a'] else [c])
            CaseSense.Sensitive
            ((sliceOf ['A'] 0 0).map fun ch =>
              ((fun c => if c = 'A' then ['a'] else [c]) ch).headI)) ∧
    ((∃ ch ∈ sliceOf ['B'] 0 0,
        ((fun _ : Char => (['q', 'q'] : List Char)) ch).length ≠ 1) ∧
      character_frequencies_range
          (fun _ : Char => (['q', 'q'] : List Char)) ['B'] 0 0
          CaseSense.Insensitive = none) :=
  ⟨⟨by decide,
    (C4_insensitive_folding (fun c => if c = 'A' then ['a'] else [c])
      ['A'] 0 0).1 (by decide)⟩,
   ⟨by decide,
    (C4_insensitive_folding (fun _ : Char => (['q', 'q'] : List Char))
      ['B'] 0 0).2 (by decide)⟩⟩

/-- C7 counterexample: invoked on the degenerate range `from = 2`,
`to = 0` of the text `"abc"`, `character_frequencies_range` does not
return the empty mapping: the wrapped `usize` count `to - from + 1` is
astronomically large, so the counter consumes every character from
position 2 on and returns the mapping `c ↦ 1`. -/
theorem C7_counterexample :
    character_frequencies_range (fun c => [c]) ['a', 'b', 'c'] 2 0
        CaseSense.Sensitive = some (bumpFreq emptyFreq 'c') ∧
    some (bumpFreq emptyFreq 'c') ≠ some (emptyFreq : FreqMap) := by
  constructor
  · rfl
  · intro h
    injection h with h2
    have h3 := congrFun h2 'c'
    simp [bumpFreq, emptyFreq] at h3

/-- C7 (amended): a degenerate range with `to` exactly one below `from`
yields the empty mapping without error (the wrapped size `to - from + 1`
is zero), and `from = to` at a position inside the text counts exactly one
character: the case-folded character at that position.  Degenerate ranges
with `to ≤ from - 2` instead wrap the size computation and consume the
rest of the text (see the counterexample). -/
theorem C7_degenerate_and_singleton :
    (∀ (lower : Char → List Char) (text : List Char) (from_ to_ : Nat)
        (cs : CaseSense), to_ + 1 = from_ →
      character_frequencies_range lower text from_ to_ cs
        = some emptyFreq) ∧
    (∀ (lower : Char → List Char) (text : List Char) (from_ : Nat)
        (cs : CaseSense) (h : from_ < text.length) (c : Char),
      caseMap lower cs (text.get ⟨from_, h⟩) = some c →
      character_frequencies_range lower text from_ from_ cs
        = some (bumpFreq emptyFreq c)) := by
  have hU : 0 < USIZE := Nat.two_pow_pos 64
  constructor
  · intro lower text from_ to_ cs hdeg
    show countFold lower cs (sliceOf text from_ to_) = some emptyFreq
    have h1 : usub to_ from_ = USIZE - 1 := by
      show (to_ + USIZE - from_) % USIZE = USIZE - 1
      have he : to_ + USIZE - from_ = USIZE - 1 := by omega
      rw [he]
      exact Nat.mod_eq_of_lt (by omega)
    have h2 : uadd (USIZE - 1) 1 = 0 := by
      show (USIZE - 1 + 1) % USIZE = 0
      have he : USIZE - 1 + 1 = USIZE := by omega
      rw [he, Nat.mod_self]
    simp only [sliceOf, h1, h2, List.take_zero]
    rfl
  · intro lower text from_ cs h c hc
    show countFold lower cs (sliceOf text from_ from_) = _
    have h1 : usub from_ from_ = 0 := by
      show (from_ + USIZE - from_) % USIZE = 0
      have he : from_ + USIZE - from_ = USIZE := by omega
      rw [he, Nat.mod_self]
    have h2 : uadd 0 1 = 1 := by
      show (0 + 1) % USIZE = 1
      have hU1 : 1 < USIZE := by decide
      exact Nat.mod_eq_of_lt (by omega)
    have hdrop : text.drop from_
        = text.get ⟨from_, h⟩ :: text.drop (from_ + 1) :=
      List.drop_eq_get_cons h
    simp only [sliceOf, h1, h2, hdrop, List.take_succ_cons,
      List.take_zero]
    show countStep lower cs (some emptyFreq) (text.get ⟨from_, h⟩) = _
    rw [countStep_some lower cs _ emptyFreq c hc]

theorem C7_witness :
    (0 + 1 = 1 ∧
      character_frequencies_range (fun c => [c]) ['a'] 1 0
        CaseSense.Sensitive = some emptyFreq) ∧
    ((1 : Nat) < List.length ['a', 'b'] ∧
      character_frequencies_range (fun c => [c]) ['a', 'b'] 1 1
        CaseSense.Sensitive = some (bumpFreq emptyFreq 'b')) :=
  ⟨⟨rfl, C7_degenerate_and_singleton.1 (fun c => [c]) ['a'] 1 0
      CaseSense.Sensitive rfl⟩,
   ⟨by decide, C7_degenerate_and_singleton.2 (fun c => [c]) ['a', 'b'] 1
      CaseSense.Sensitive (by decide) 'b' rfl⟩⟩

/-- C9 counterexample: the full-`usize` range `from = 0`,
`to = USIZE - 1` on the one-character text `"a"` wraps the size
computation `to - from + 1` around to zero, so the counter counts nothing
at all instead of counting the in-range position 0. -/
theorem C9_counterexample :
    (0 : Nat) ≤ USIZE - 1 ∧
    character_frequencies_range (fun c => [c]) ['a'] 0 (USIZE - 1)
        CaseSense.Sensitive = some emptyFreq ∧
    emptyFreq 'a' = none :=
  ⟨Nat.zero_le _, rfl, rfl⟩

/-- C9 (amended): for every `from ≤ to` with `to < USIZE` and a
non-wrapping inclusive size `to + 1 - from < USIZE`,
`character_frequencies_range` counts exactly the characters whose
position lies both in `from..to` (inclusive) and below the text's
character count — the counted slice is `(text.take (to + 1)).drop from` —
and a range lying entirely at or past the end of the text yields the
empty mapping without error.  The single excluded input `from = 0`,
`to = USIZE - 1` wraps the size to zero and counts nothing. -/
theorem C9_range_truncation (lower : Char → List Char)
    (text : List Char) (from_ to_ : Nat) (cs : CaseSense)
    (hft : from_ ≤ to_) (hto : to_ < USIZE)
    (hnw : to_ + 1 - from_ < USIZE) :
    character_frequencies_range lower text from_ to_ cs
      = countFold lower cs ((text.take (to_ + 1)).drop from_) ∧
    (text.length ≤ from_ →
      character_frequencies_range lower text from_ to_ cs
        = some emptyFreq) := by
  have h1 : usub to_ from_ = to_ - from_ := by
    show (to_ + USIZE - from_) % USIZE = to_ - from_
    have he : to_ + USIZE - from_ = (to_ - from_) + USIZE := by omega
    rw [he, Nat.add_mod_right]
    exact Nat.mod_eq_of_lt (by omega)
  have h2 : uadd (to_ - from_) 1 = to_ - from_ + 1 := by
    show (to_ - from_ + 1) % USIZE = to_ - from_ + 1
    exact Nat.mod_eq_of_lt (by omega)
  have hslice : sliceOf text from_ to_
      = (text.take (to_ + 1)).drop from_ := by
    simp only [sliceOf, h1, h2]
    rw [List.take_drop]
    have he2 : from_ + (to_ - from_ + 1) = to_ + 1 := by omega
    rw [he2]
  constructor
  · show countFold lower cs (sliceOf text from_ to_) = _
    rw [hslice]
  · intro hpast
    show countFold lower cs (sliceOf text from_ to_) = some emptyFreq
    rw [hslice]
    have hlen : (text.take (to_ + 1)).length ≤ from_ := by
      rw [List.length_take]
      have := Nat.min_le_right (to_ + 1) text.length
      omega
    rw [List.drop_eq_nil_of_le hlen]
    rfl

theorem C9_witness :
    1 ≤ 5 ∧ 5 < USIZE ∧ 5 + 1 - 1 < USIZE ∧
    (character_frequencies_range (fun c => [c]) ['a', 'b'] 1 5
        CaseSense.Sensitive
      = countFold (fun c => [c]) CaseSense.Sensitive
          ((['a', 'b'].take (5 + 1)).drop 1) ∧
      (List.length ['a', 'b'] ≤ 1 →
        character_frequencies_range (fun c => [c]) ['a', 'b'] 1 5
          CaseSense.Sensitive = some emptyFreq)) :=
  ⟨by decide, by decide, by decide,
    C9_range_truncation (fun c => [c]) ['a', 'b'] 1 5
      CaseSense.Sensitive (by decide) (by decide) (by decide)⟩

/-- C6: for every text, every `threads ≥ 1` (with the planned positions
inside the `usize` range), and every mode under which the operation does
not fail, any mapping returned by
`character_frequencies_with_n_threads_w_case` has its keys among the
case-folded characters of the text and the sum of all its counts equals
the number of characters (Unicode scalar values) of the input text. -/
theorem C6_count_conservation (lower : Char → List Char)
    (text : List Char) (threads : Nat) (cs : CaseSense)
    (ht : 1 ≤ threads) (hw : threads + byteLen text < USIZE)
    (hok : ∀ ch ∈ text, (caseMap lower cs ch).isSome = true)
    (r : FreqMap) (hr : OrchestratorReturns lower text threads cs r) :
    (∀ c, r c ≠ none →
      c ∈ (text.filterMap (caseMap lower cs)).toFinset) ∧
    ((text.filterMap (caseMap lower cs)).toFinset.sum
      fun c => (r c).getD 0) = text.length := by
  have hseq :=
    (orchestrator_correct lower text threads cs ht hw hok).2 r hr
  have hcf : countFold lower cs text = some r := by
    rw [← sequential_eq_countFold lower text cs (by omega)]
    exact hseq
  constructor
  · intro c hc
    exact List.mem_toFinset.mpr
      (countFold_support lower cs text r hcf c hc)
  · exact countFold_sum lower cs text r hcf hok

theorem C6_witness :
    1 ≤ 1 ∧ 1 + byteLen ['a', 'b', 'a'] < USIZE ∧
    (∀ ch ∈ ['a', 'b', 'a'],
      (caseMap (fun c => [c]) CaseSense.Sensitive ch).isSome = true) ∧
    ((∀ c,
        (bumpFreq (bumpFreq (bumpFreq emptyFreq 'a') 'b') 'a') c ≠ none →
        c ∈ (['a', 'b', 'a'].filterMap
          (caseMap (fun c => [c]) CaseSense.Sensitive)).toFinset) ∧
      ((['a', 'b', 'a'].filterMap
          (caseMap (fun c => [c]) CaseSense.Sensitive)).toFinset.sum
        fun c => ((bumpFreq (bumpFreq (bumpFreq emptyFreq 'a') 'b') 'a')
          c).getD 0) = List.length ['a', 'b', 'a']) :=
  ⟨by decide, by decide, by decide,
    C6_count_conservation (fun c => [c]) ['a', 'b', 'a'] 1
      CaseSense.Sensitive (by decide) (by decide) (by decide)
      (bumpFreq (bumpFreq (bumpFreq emptyFreq 'a') 'b') 'a')
      (by
        show sequential_character_frequencies_w_case (fun c => [c])
            ['a', 'b', 'a'] CaseSense.Sensitive
          = some (bumpFreq (bumpFreq (bumpFreq emptyFreq 'a') 'b') 'a')
        rfl)⟩

theorem add_frequencies_no_zero (a b : FreqMap)
    (ha : ∀ c, a c ≠ some 0) (hb : ∀ c, b c ≠ some 0) :
    ∀ c, add_frequencies a b c ≠ some 0 := by
  intro c
  cases hac : a c with
  | none =>
    cases hbc : b c with
    | none => simp [add_frequencies, hac, hbc]
    | some y =>
      have hy : y ≠ 0 := by
        intro h0
        exact hb c (by rw [hbc, h0])
      simp [add_frequencies, hac, hbc, hy]
  | some x =>
    have hx : x ≠ 0 := by
      intro h0
      exact ha c (by rw [hac, h0])
    cases hbc : b c with
    | none => simp [add_frequencies, hac, hbc, hx]
    | some y =>
      simp [add_frequencies, hac, hbc]
      omega

theorem foldAll_no_zero (ms : List FreqMap)
    (h : ∀ m ∈ ms, ∀ c, m c ≠ some 0) :
    ∀ c, foldAll ms c ≠ some 0 := by
  induction ms with
  | nil => intro c; simp [foldAll, emptyFreq]
  | cons m ms ih =>
    intro c
    rw [foldAll_cons]
    exact add_frequencies_no_zero m (foldAll ms)
      (h m (List.mem_cons_self m ms))
      (ih (fun m2 hm2 => h m2 (List.mem_cons_of_mem m hm2))) c

/-- C10: no returned mapping contains a key with count 0: every mapping
produced by `character_frequencies_range`, every `add_frequencies` merge
of two mappings satisfying the invariant, and every mapping any run of
`character_frequencies_with_n_threads_w_case` (on which all public
operations are built) can return maps each of its keys to a count of at
least 1. -/
theorem C10_no_zero_counts :
    (∀ (lower : Char → List Char) (text : List Char) (from_ to_ : Nat)
        (cs : CaseSense) (m : FreqMap),
      character_frequencies_range lower text from_ to_ cs = some m →
      ∀ c, m c ≠ some 0) ∧
    (∀ a b : FreqMap, (∀ c, a c ≠ some 0) → (∀ c, b c ≠ some 0) →
      ∀ c, add_frequencies a b c ≠ some 0) ∧
    (∀ (lower : Char → List Char) (text : List Char) (threads : Nat)
        (cs : CaseSense) (r : FreqMap),
      OrchestratorReturns lower text threads cs r →
      ∀ c, r c ≠ some 0) := by
  refine ⟨?_, add_frequencies_no_zero, ?_⟩
  · intro lower text from_ to_ cs m hm c
    exact countFold_ne_some_zero lower cs _ m hm c
  · intro lower text threads cs r hr c
    by_cases hts : threads ≤ 1
    · simp only [OrchestratorReturns, if_pos hts] at hr
      exact countFold_ne_some_zero lower cs _ r hr c
    · simp only [OrchestratorReturns, if_neg hts] at hr
      have hms : ∀ m ∈ (rangeResults lower text threads cs).filterMap id,
          ∀ c2, m c2 ≠ some 0 := by
        intro m hm c2
        obtain ⟨o, ho, hid⟩ := List.mem_filterMap.mp hm
        obtain ⟨p, hp, rfl⟩ := List.mem_map.mp ho
        exact countFold_ne_some_zero lower cs _ m hid c2
      rw [mergeReduces_eq_foldAll hr.2]
      exact foldAll_no_zero _ hms c

theorem C10_witness :
    (character_frequencies_range (fun c => [c]) ['a'] 0 0
        CaseSense.Sensitive = some (bumpFreq emptyFreq 'a') ∧
      bumpFreq emptyFreq 'a' 'a' ≠ some 0) ∧
    ((∀ c, emptyFreq c ≠ some 0) ∧
      add_frequencies emptyFreq emptyFreq 'a' ≠ some 0) ∧
    (OrchestratorReturns (fun c => [c]) ['a'] 1 CaseSense.Sensitive
        (bumpFreq emptyFreq 'a') ∧
      bumpFreq emptyFreq 'a' 'b' ≠ some 0) :=
  ⟨⟨rfl, C10_no_zero_counts.1 (fun c => [c]) ['a'] 0 0
      CaseSense.Sensitive (bumpFreq emptyFreq 'a') rfl 'a'⟩,
   ⟨fun c => by simp [emptyFreq],
    C10_no_zero_counts.2.1 emptyFreq emptyFreq
      (fun c => by simp [emptyFreq]) (fun c => by simp [emptyFreq]) 'a'⟩,
   ⟨by
      show sequential_character_frequencies_w_case (fun c => [c]) ['a']
          CaseSense.Sensitive = some (bumpFreq emptyFreq 'a')
      rfl,
    C10_no_zero_counts.2.2 (fun c => [c]) ['a'] 1 CaseSense.Sensitive
      (bumpFreq emptyFreq 'a')
      (by
        show sequential_character_frequencies_w_case (fun c => [c]) ['a']
            CaseSense.Sensitive = some (bumpFreq emptyFreq 'a')
        rfl) 'b'⟩⟩
